import Mathlib

/-
Shallow embedding of the rst_opt_parse command-line option parser
(src/lib.rs of hidenorly/rst_opt_parse), together with theorems checking
the natural-language specification against it.

Modelling conventions:
- Rust `String` is modelled by Lean `String`; `str::starts_with` is byte-level
  prefix testing, which on valid UTF-8 coincides with character-list prefix
  testing, so it is modelled by `List.isPrefixOf` on the character data.
- `str::find("=")` returns the byte position of the first `=`; slicing at
  `pos+1` yields the substring after the first `=`.  Since `=` is a single
  ASCII scalar, this is modelled at character level: the index of the first
  `=` character and dropping that many characters plus one.
- `std::collections::HashMap` is modelled by an association list whose
  `insert` overwrites the value of an existing key in place and appends a
  fresh key; lookups use the first (hence, for never-duplicated keys, the
  only) matching entry.
- The `while` loop of the positional pass advances its index by a computed
  amount; it is modelled by a structurally recursive function with a fuel
  parameter, instantiated with fuel `args.length - i`, which is shown to be
  sufficient (fuel irrelevance is proved below).
- `std::process::exit(0)` inside `parse_options` is modelled by returning an
  `exited` flag along with the state reached at the exit point.
-/

namespace RstOptParse

/-- Rust's `str::starts_with` for a string pattern: byte-prefix testing, which
on valid UTF-8 strings is character-list prefix testing. -/
def strStartsWith (s p : String) : Bool :=
  p.data.isPrefixOf s.data

/-- Rust's `s.find("=")`: position of the first `=` in the token, expressed in
characters (the byte/character discrepancy is immaterial because slicing
happens right after this ASCII character). -/
def findEqPos (s : String) : Option Nat :=
  s.data.findIdx? (fun c => c = '=')

/-- Rust's `s[n..]` slicing, at character granularity. -/
def strDropChars (s : String) (n : Nat) : String :=
  String.mk (s.data.drop n)

/-- The `OptParseItem` struct of src/lib.rs: one declared option. -/
structure OptParseItem where
  option : String
  full_option : String
  arg_required : Bool
  value : String
  description : String

/-- `OptParseItem::new` of src/lib.rs. -/
def OptParseItem.new (option full_option : String) (arg_required : Bool)
    (value description : String) : OptParseItem :=
  ⟨option, full_option, arg_required, value, description⟩

/-- The `OptParse` struct of src/lib.rs.  `values` models the `HashMap` as an
association list (see the header comment). -/
structure OptParse where
  args : List String
  options : List OptParseItem
  values : List (String × String)
  arg_values : List String
  description : String

/-- `OptParse::new` of src/lib.rs: empty `values` map and empty `arg_values`. -/
def OptParse.new (args : List String) (options : List OptParseItem)
    (description : String) : OptParse :=
  ⟨args, options, [], [], description⟩

/-- `HashMap::insert`: overwrite the value stored under an existing key,
otherwise add the new binding. -/
def insertAssoc (k v : String) (m : List (String × String)) :
    List (String × String) :=
  if m.any (fun e => e.1 == k) then
    m.map (fun e => if e.1 = k then (k, v) else e)
  else
    m ++ [(k, v)]

/-- The short-form arm of the scan body of `parse_option` (src/lib.rs lines
125-139): on `option.option == arg`, a required-value option takes the next
token as its value when that token exists and does not start with `-`; a
no-value option records the flag hit.  The accumulator is the pair of the
current `value` and the `found_set_true` flag. -/
def stepShort (o : OptParseItem) (args : List String) (i : Nat)
    (acc : String × Bool) : String × Bool :=
  if args.getD i "" = o.option then
    if o.arg_required then
      if i + 1 < args.length then
        if strStartsWith (args.getD (i + 1) "") "-" then acc
        else (args.getD (i + 1) "", acc.2)
      else acc
    else (acc.1, true)
  else acc

/-- The long-form arm of the scan body of `parse_option` (src/lib.rs lines
140-153): on `arg.starts_with(option.full_option)`, a required-value option
takes the substring after the first `=` when one exists; a no-value option
records the flag hit. -/
def stepLong (o : OptParseItem) (args : List String) (i : Nat)
    (acc : String × Bool) : String × Bool :=
  if strStartsWith (args.getD i "") o.full_option then
    if o.arg_required then
      match findEqPos (args.getD i "") with
      | some p => (strDropChars (args.getD i "") (p + 1), acc.2)
      | none => acc
    else (acc.1, true)
  else acc

/-- One iteration of the `for i in 0..argc` loop of `parse_option`: the two
`if` statements run in sequence, short-form arm first. -/
def parseStep (o : OptParseItem) (args : List String) (acc : String × Bool)
    (i : Nat) : String × Bool :=
  stepLong o args i (stepShort o args i acc)

/-- The value computed by `parse_option` (src/lib.rs lines 119-159) for one
spec: fold the scan body over all indices, then force `"true"` if the
`found_set_true` flag was set. -/
def parse_option_value (o : OptParseItem) (args : List String) : String :=
  let r := (List.range args.length).foldl (parseStep o args) (o.value, false)
  if r.2 then "true" else r.1

/-- `parse_option` of src/lib.rs: store the resolved value into the map under
the short-form key. -/
def parse_option (p : OptParse) (o : OptParseItem) : OptParse :=
  { p with values := insertAssoc o.option (parse_option_value o p.args) p.values }

/-- The help-detection loop of `parse_options` (src/lib.rs lines 92-100):
some token equals `-h` or starts with `--help`. -/
def hasHelp (args : List String) : Bool :=
  args.any (fun a => (a == "-h") || strStartsWith a "--help")

/-- The extra index advance of the positional pass (src/lib.rs lines 107-111):
the inner `for option in _options` loop increments `i` once per spec whose
short form equals the token and which requires a value. -/
def skipCount (options : List OptParseItem) (arg : String) : Nat :=
  options.countP (fun o => (arg == o.option) && o.arg_required)

/-- The `while i < argc` positional pass of `parse_options` (src/lib.rs lines
103-116), with an explicit fuel parameter making the recursion structural;
`collectArgs` instantiates the fuel with a sufficient amount. -/
def collectArgsGo (options : List OptParseItem) (args : List String) :
    Nat → Nat → List String
  | _, 0 => []
  | i, fuel + 1 =>
    if i < args.length then
      if strStartsWith (args.getD i "") "-" then
        collectArgsGo options args (i + skipCount options (args.getD i "") + 1) fuel
      else
        args.getD i "" :: collectArgsGo options args (i + 1) fuel
    else []

/-- The positional tokens appended by the positional pass when started at
index `i`. -/
def collectArgs (options : List OptParseItem) (args : List String)
    (i : Nat) : List String :=
  collectArgsGo options args i (args.length - i)

/-- `parse_options` of src/lib.rs: resolve every spec, then detect help (with
a possible process exit, modelled by the returned flag), then run the
positional pass, which pushes onto the existing `arg_values`. -/
def parse_options (p : OptParse) (is_finish_if_help : Bool) :
    OptParse × Bool :=
  let p1 := p.options.foldl parse_option p
  if is_finish_if_help && hasHelp p1.args then
    (p1, true)
  else
    ({ p1 with arg_values := p1.arg_values ++ collectArgs p1.options p1.args 0 },
     false)

/-- `get_value` of src/lib.rs: resolved value, or the empty string when the
key is absent. -/
def get_value (p : OptParse) (option : String) : String :=
  match List.lookup option p.values with
  | some v => v
  | none => ""

/-- `get_args_count` of src/lib.rs. -/
def get_args_count (p : OptParse) : Nat :=
  p.arg_values.length

/-- `get_args` of src/lib.rs: positional at `index`, or the empty string when
`index` is out of range. -/
def get_args (p : OptParse) (index : Nat) : String :=
  if index < get_args_count p then p.arg_values.getD index "" else ""

/-- Modelled from the spec: `parse_options_with_required_args` is invoked from
src/main.rs but its body is not among the repository sources under src/.  Per
the spec, this variant of parse takes a minimum and maximum required
positional count (maximum `-1` meaning unbounded) and, combined with the
help-halt behaviour, rejects the run via help/usage output and process
termination when the positional count is out of bounds.  The second returned
component records that help was rendered, the third that the process
terminated. -/
def parse_options_with_required_args (p : OptParse) (is_finish_if_help : Bool)
    (minArgs maxArgs : Int) : OptParse × Bool × Bool :=
  let pr := parse_options p is_finish_if_help
  if pr.2 then
    (pr.1, true, true)
  else
    let n : Int := (get_args_count pr.1 : Int)
    if n < minArgs ∨ (maxArgs ≠ -1 ∧ maxArgs < n) then
      (pr.1, true, true)
    else
      (pr.1, hasHelp pr.1.args, false)

/-- The positional pass exactly as the specification words it (claim-side
definition, to be compared with `collectArgs`): a dash token matched by some
value-requiring spec's short form additionally skips the single next token;
any other dash token is skipped alone; other tokens are appended in order. -/
def positionalsSpec (options : List OptParseItem) : List String → List String
  | [] => []
  | a :: rest =>
    if strStartsWith a "-" then
      if options.any (fun o => (a == o.option) && o.arg_required) then
        match rest with
        | [] => []
        | _ :: rest2 => positionalsSpec options rest2
      else
        positionalsSpec options rest
    else
      a :: positionalsSpec options rest

/-- The value-setting effect of one scan iteration of `parse_option` for a
value-requiring spec: `some v` when the iteration overwrites the running value
with `v` (the long-form arm, which runs second, wins inside one iteration),
`none` when it leaves the running value unchanged. -/
def stepSets (o : OptParseItem) (args : List String) (i : Nat) : Option String :=
  match (if strStartsWith (args.getD i "") o.full_option then
           (findEqPos (args.getD i "")).map (fun p => strDropChars (args.getD i "") (p + 1))
         else none) with
  | some v => some v
  | none =>
    if args.getD i "" = o.option ∧ i + 1 < args.length ∧
        strStartsWith (args.getD (i + 1) "") "-" = false then
      some (args.getD (i + 1) "")
    else none

/-- Instrumented scan iteration of `parse_option`: every indexing of the raw
argument vector goes through the partial `args[i]?`, so the result is `none`
exactly when the original code would index out of bounds. -/
def parseStepChecked (o : OptParseItem) (args : List String)
    (acc : String × Bool) (i : Nat) : Option (String × Bool) :=
  (args[i]?).bind fun arg =>
    (if arg = o.option then
      if o.arg_required then
        if i + 1 < args.length then
          (args[i + 1]?).map (fun nxt => if strStartsWith nxt "-" then acc else (nxt, acc.2))
        else some acc
      else some (acc.1, true)
    else some acc).map fun acc1 =>
      if strStartsWith arg o.full_option then
        if o.arg_required then
          match findEqPos arg with
          | some p => (strDropChars arg (p + 1), acc1.2)
          | none => acc1
        else (acc1.1, true)
      else acc1

/-- Instrumented `parse_option` value computation (see `parseStepChecked`). -/
def parse_option_value_checked (o : OptParseItem) (args : List String) :
    Option String :=
  ((List.range args.length).foldl
      (fun acc i => acc.bind (fun a => parseStepChecked o args a i))
      (some (o.value, false))).map
    (fun r => if r.2 then "true" else r.1)

/-- Instrumented help-detection loop, walking the indices like the `for` loop
of src/lib.rs lines 92-100, with partial indexing. -/
def hasHelpCheckedGo (args : List String) : Nat → Nat → Option Bool
  | _, 0 => some false
  | i, fuel + 1 =>
    if i < args.length then
      (args[i]?).bind fun a =>
        (hasHelpCheckedGo args (i + 1) fuel).map
          (fun b => ((a == "-h") || strStartsWith a "--help") || b)
    else some false

/-- Instrumented positional pass with partial indexing. -/
def collectArgsGoChecked (options : List OptParseItem) (args : List String) :
    Nat → Nat → Option (List String)
  | _, 0 => some []
  | i, fuel + 1 =>
    if i < args.length then
      (args[i]?).bind fun arg =>
        if strStartsWith arg "-" then
          collectArgsGoChecked options args (i + skipCount options arg + 1) fuel
        else
          (collectArgsGoChecked options args (i + 1) fuel).map (fun l => arg :: l)
    else some []

/-- Instrumented `parse_options`: all three passes with partial indexing. -/
def parse_options_checked (p : OptParse) (is_finish_if_help : Bool) :
    Option (OptParse × Bool) :=
  (p.options.foldl
      (fun acc o => acc.bind fun q =>
        (parse_option_value_checked o q.args).map fun v =>
          { q with values := insertAssoc o.option v q.values })
      (some p)).bind
    fun p1 => (hasHelpCheckedGo p1.args 0 p1.args.length).bind
      fun hh =>
        if is_finish_if_help && hh then some (p1, true)
        else
          (collectArgsGoChecked p1.options p1.args 0 p1.args.length).map
            fun c => ({ p1 with arg_values := p1.arg_values ++ c }, false)

/-- Instrumented `get_args` with partial indexing into `arg_values`. -/
def get_args_checked (p : OptParse) (index : Nat) : Option String :=
  if index < get_args_count p then p.arg_values[index]? else some ""

/-- The effect of the per-spec resolution loop of `parse_options` on the
`values` map, isolated from the rest of the parser state. -/
def valuesFold (os : List OptParseItem) (args : List String)
    (m : List (String × String)) : List (String × String) :=
  os.foldl (fun m1 o => insertAssoc o.option (parse_option_value o args) m1) m

/-- Key membership in the association-list model of the `HashMap`. -/
def hasKey (m : List (String × String)) (k : String) : Bool :=
  m.any (fun e => e.1 == k)

/-- The key `k` occurs in `m` and every entry under it carries the value `v`. -/
def presentWith (m : List (String × String)) (k v : String) : Prop :=
  (∃ e ∈ m, e.1 = k) ∧ ∀ e ∈ m, e.1 = k → e.2 = v

/-- Two association lists of the same shape whose entries agree on keys
everywhere and agree outright outside the key set `ks`. -/
def DiffOnly (ks : List String) :
    List (String × String) → List (String × String) → Prop
  | [], [] => True
  | e :: xs, f :: ys => e.1 = f.1 ∧ (e.1 ∉ ks → e = f) ∧ DiffOnly ks xs ys
  | _, _ => False

/-! Generic fold lemmas. -/

theorem foldl_fixed {α β : Type} (f : β → α → β) (b : β) :
    ∀ l : List α, (∀ x ∈ l, f b x = b) → l.foldl f b = b := by
  intro l
  induction l with
  | nil => intro _; rfl
  | cons x xs ih =>
    intro h
    simp only [List.foldl_cons]
    rw [h x (by simp)]
    exact ih (fun y hy => h y (by simp [hy]))

theorem foldl_pres {α β : Type} (f : β → α → β) (P : β → Prop)
    (hpres : ∀ b x, P b → P (f b x)) :
    ∀ (l : List α) (b : β), P b → P (l.foldl f b) := by
  intro l
  induction l with
  | nil => intro b hb; exact hb
  | cons x xs ih =>
    intro b hb
    simp only [List.foldl_cons]
    exact ih _ (hpres b x hb)

theorem foldl_reaches {α β : Type} (f : β → α → β) (P : β → Prop)
    (hpres : ∀ b x, P b → P (f b x)) (x : α) (hx : ∀ b, P (f b x)) :
    ∀ (l : List α) (b : β), x ∈ l → P (l.foldl f b) := by
  intro l
  induction l with
  | nil => intro b hmem; cases hmem
  | cons y ys ih =>
    intro b hmem
    simp only [List.foldl_cons]
    rcases List.mem_cons.mp hmem with hEq | hTail
    · subst hEq
      exact foldl_pres f P hpres ys _ (hx b)
    · exact ih _ hTail

/-! State characterization of `parse_options`. -/

theorem foldl_parse_option_state (os : List OptParseItem) :
    ∀ p : OptParse,
      os.foldl parse_option p =
        { p with values := valuesFold os p.args p.values } := by
  induction os with
  | nil => intro p; simp [valuesFold]
  | cons o os ih =>
    intro p
    simp only [List.foldl_cons]
    rw [ih]
    simp [parse_option, valuesFold]

theorem parse_options_eq (p : OptParse) (fin : Bool) :
    parse_options p fin =
      ({ p with
          values := valuesFold p.options p.args p.values,
          arg_values := p.arg_values ++
            (if fin && hasHelp p.args then [] else collectArgs p.options p.args 0) },
       fin && hasHelp p.args) := by
  unfold parse_options
  rw [foldl_parse_option_state]
  cases hfin : fin <;> cases hh : hasHelp p.args <;> simp [hfin, hh]

/-- C8: lookups never fail: `get_value` returns the empty string for every
token with no entry in the values map, and `get_args` returns the empty
string for every index at or past `get_args_count`, never raising an error. -/
theorem C8_lookups_never_fail :
    (∀ (p : OptParse) (t : String), List.lookup t p.values = none → get_value p t = "") ∧
    (∀ (p : OptParse) (i : Nat), get_args_count p ≤ i → get_args p i = "") := by
  constructor
  · intro p t h
    simp [get_value, h]
  · intro p i h
    simp [get_args, Nat.not_lt.mpr h]

/-- Witness for C8: a long-form token that occurs literally in `rawArgs` is
still looked up as the empty string (only short-form keys are indexed), and
the first out-of-range positional index yields the empty string. -/
theorem C8_lookups_never_fail_witness :
    get_value ((parse_options (OptParse.new ["--encoding=PCM32"]
        [OptParseItem.new "-e" "--encoding" true "PCM16" "enc"] "") false).1)
      "--encoding" = "" ∧
    get_args ((parse_options (OptParse.new ["--encoding=PCM32"]
        [OptParseItem.new "-e" "--encoding" true "PCM16" "enc"] "") false).1)
      0 = "" :=
  ⟨C8_lookups_never_fail.1 _ _ (by decide), C8_lookups_never_fail.2 _ _ (by decide)⟩

/-- C2: the required-args parse entry point (modelled from the spec, see
`parse_options_with_required_args`): whenever the positional count after
parsing is below the minimum or above a maximum other than `-1`, help is
rendered and the process terminates. -/
theorem C2_required_args_bounds (p : OptParse) (fin : Bool) (minA maxA : Int)
    (h : ((get_args_count (parse_options_with_required_args p fin minA maxA).1 : Int) < minA)
       ∨ (maxA ≠ -1 ∧ maxA < (get_args_count (parse_options_with_required_args p fin minA maxA).1 : Int))) :
    (parse_options_with_required_args p fin minA maxA).2.1 = true ∧
    (parse_options_with_required_args p fin minA maxA).2.2 = true := by
  unfold parse_options_with_required_args at h ⊢
  by_cases hpr : (parse_options p fin).2 = true
  · simp [hpr]
  · simp only [Bool.not_eq_true] at hpr
    simp only [hpr, Bool.false_eq_true, if_false] at h ⊢
    by_cases hc : ((get_args_count (parse_options p fin).1 : Int) < minA)
       ∨ (maxA ≠ -1 ∧ maxA < (get_args_count (parse_options p fin).1 : Int))
    · simp [hc]
    · simp only [if_neg hc] at h
      exact absurd h hc

/-- Witness for C2: an empty argument vector with a minimum of one required
positional is rejected with help output and termination. -/
theorem C2_required_args_bounds_witness :
    (parse_options_with_required_args (OptParse.new [] [] "") false 1 (-1)).2.1 = true ∧
    (parse_options_with_required_args (OptParse.new [] [] "") false 1 (-1)).2.2 = true :=
  C2_required_args_bounds _ _ _ _ (by decide)

/-! Per-spec resolution: a spec whose effective matches never set a value
keeps its declared default. -/

theorem parse_option_value_default (o : OptParseItem) (args : List String)
    (hreq : o.arg_required = true)
    (hshort : ∀ i, i < args.length → args.getD i "" = o.option →
        args.length ≤ i + 1 ∨ strStartsWith (args.getD (i + 1) "") "-" = true)
    (hlong : ∀ a ∈ args, strStartsWith a o.full_option = false) :
    parse_option_value o args = o.value := by
  unfold parse_option_value
  have hfix : ∀ i ∈ List.range args.length,
      parseStep o args (o.value, false) i = (o.value, false) := by
    intro i hi
    have hilen : i < args.length := List.mem_range.mp hi
    have hmem : args.getD i "" ∈ args := by
      rw [List.getD_eq_getElem args "" hilen]
      exact List.getElem_mem hilen
    unfold parseStep stepShort stepLong
    rw [hlong _ hmem]
    rw [if_neg (by simp)]
    by_cases he : args.getD i "" = o.option
    · rw [if_pos he, hreq, if_pos rfl]
      by_cases hlt : i + 1 < args.length
      · rcases hshort i hilen he with hge | hdash
        · omega
        · rw [if_pos hlt, if_pos hdash]
      · rw [if_neg hlt]
    · rw [if_neg he]
  rw [foldl_fixed _ _ _ hfix]
  rfl

/-- C4: for a value-requiring spec matched by its exact short token, the next
token is taken as the value only when it exists and does not begin with `-`
(first conjunct: the eligible case does take it; second conjunct: if every
short hit is last or followed by a dash token, and no token long-matches, the
value stays at the declared default); third conjunct: on `["-s", "-v"]` the
required `-s` keeps its default `48000` while the flag `-v` resolves to
`"true"`. -/
theorem C4_value_lookahead :
    (∀ (o : OptParseItem) (args : List String) (i : Nat) (acc : String × Bool),
      o.arg_required = true → args.getD i "" = o.option → i + 1 < args.length →
      strStartsWith (args.getD (i + 1) "") "-" = false →
      stepShort o args i acc = (args.getD (i + 1) "", acc.2)) ∧
    (∀ (o : OptParseItem) (args : List String),
      o.arg_required = true →
      (∀ i, i < args.length → args.getD i "" = o.option →
        args.length ≤ i + 1 ∨ strStartsWith (args.getD (i + 1) "") "-" = true) →
      (∀ a ∈ args, strStartsWith a o.full_option = false) →
      parse_option_value o args = o.value) ∧
    (get_value ((parse_options (OptParse.new ["-s", "-v"]
        [OptParseItem.new "-v" "--verbose" false "false" "verbose",
         OptParseItem.new "-s" "--samplingRate" true "48000" "rate"] "") false).1)
      "-s" = "48000" ∧
     get_value ((parse_options (OptParse.new ["-s", "-v"]
        [OptParseItem.new "-v" "--verbose" false "false" "verbose",
         OptParseItem.new "-s" "--samplingRate" true "48000" "rate"] "") false).1)
      "-v" = "true") := by
  refine ⟨?_, ?_, by decide, by decide⟩
  · intro o args i acc hreq he hlt hdash
    unfold stepShort
    rw [if_pos he, hreq, if_pos rfl, if_pos hlt,
      if_neg (by rw [hdash]; exact Bool.false_ne_true)]
  · exact parse_option_value_default

/-- Witness for C4: the general conjuncts applied at the `["-s", "-v"]`
input with the value-requiring `-s` spec. -/
theorem C4_value_lookahead_witness :
    stepShort (OptParseItem.new "-s" "--samplingRate" true "48000" "rate")
      ["-s", "ok"] 0 ("48000", false) = ("ok", false) ∧
    parse_option_value (OptParseItem.new "-s" "--samplingRate" true "48000" "rate")
      ["-s", "-v"] = "48000" :=
  ⟨C4_value_lookahead.1 _ _ _ _ (by decide) (by decide) (by decide) (by decide),
   C4_value_lookahead.2.1 _ _ (by decide) (by decide) (by decide)⟩

/-! Lookup behaviour of the association-list model of the map. -/

theorem lookup_map_replace (k v : String) :
    ∀ m : List (String × String), (∃ e ∈ m, e.1 = k) →
      List.lookup k (m.map (fun e => if e.1 = k then (k, v) else e)) = some v := by
  intro m
  induction m with
  | nil => intro h; simp at h
  | cons e m ih =>
    intro h
    obtain ⟨ek, ev⟩ := e
    by_cases he : ek = k
    · simp only [List.map_cons, if_pos he]
      simp only [List.lookup, beq_self_eq_true]
    · simp only [List.map_cons]
      rw [if_neg (by simpa using he)]
      have hne : k ≠ ek := fun hk => he hk.symm
      simp only [List.lookup, beq_eq_false_iff_ne.mpr hne]
      apply ih
      rcases h with ⟨f, hf, hfk⟩
      rcases List.mem_cons.mp hf with rfl | hfm
      · exact absurd hfk he
      · exact ⟨f, hfm, hfk⟩

theorem lookup_map_replace_other (k k1 v : String) (hne : k1 ≠ k) :
    ∀ m : List (String × String),
      List.lookup k1 (m.map (fun e => if e.1 = k then (k, v) else e)) =
        List.lookup k1 m := by
  intro m
  induction m with
  | nil => rfl
  | cons e m ih =>
    obtain ⟨ek, ev⟩ := e
    by_cases hek : ek = k
    · simp only [List.map_cons]
      rw [if_pos (by simpa using hek)]
      have h1 : k1 ≠ ek := hek ▸ hne
      simp only [List.lookup, beq_eq_false_iff_ne.mpr hne, beq_eq_false_iff_ne.mpr h1]
      exact ih
    · simp only [List.map_cons]
      rw [if_neg (by simpa using hek)]
      by_cases hk1 : k1 = ek
      · simp only [List.lookup, beq_iff_eq.mpr hk1]
      · simp only [List.lookup, beq_eq_false_iff_ne.mpr hk1]
        exact ih

theorem lookup_append_new (k v : String) :
    ∀ m : List (String × String), (∀ e ∈ m, e.1 ≠ k) →
      List.lookup k (m ++ [(k, v)]) = some v := by
  intro m
  induction m with
  | nil =>
    intro _
    simp only [List.nil_append, List.lookup, beq_self_eq_true]
  | cons e m ih =>
    intro h
    obtain ⟨ek, ev⟩ := e
    have hne : k ≠ ek := fun hk => (h (ek, ev) (by simp)) hk.symm
    simp only [List.cons_append, List.lookup, beq_eq_false_iff_ne.mpr hne]
    exact ih (fun f hf => h f (by simp [hf]))

theorem lookup_append_other (k k1 v : String) (hne : k1 ≠ k) :
    ∀ m : List (String × String),
      List.lookup k1 (m ++ [(k, v)]) = List.lookup k1 m := by
  intro m
  induction m with
  | nil => simp only [List.nil_append, List.lookup, beq_eq_false_iff_ne.mpr hne]
  | cons e m ih =>
    obtain ⟨ek, ev⟩ := e
    by_cases hk1 : k1 = ek
    · simp only [List.cons_append, List.lookup, beq_iff_eq.mpr hk1]
    · simp only [List.cons_append, List.lookup, beq_eq_false_iff_ne.mpr hk1]
      exact ih

theorem lookup_insertAssoc_self (k v : String) (m : List (String × String)) :
    List.lookup k (insertAssoc k v m) = some v := by
  unfold insertAssoc
  by_cases h : m.any (fun e => e.1 == k) = true
  · rw [if_pos h]
    apply lookup_map_replace
    rcases List.any_eq_true.mp h with ⟨e, hem, hek⟩
    exact ⟨e, hem, beq_iff_eq.mp hek⟩
  · rw [if_neg h]
    apply lookup_append_new
    intro e hem
    have hf : m.any (fun e => e.1 == k) = false := by
      cases hany : m.any (fun e => e.1 == k) with
      | false => rfl
      | true => exact absurd hany h
    exact fun hkk => (List.any_eq_false.mp hf e hem) (beq_iff_eq.mpr hkk)

theorem lookup_insertAssoc_other (k k1 v : String) (hne : k1 ≠ k)
    (m : List (String × String)) :
    List.lookup k1 (insertAssoc k v m) = List.lookup k1 m := by
  unfold insertAssoc
  by_cases h : m.any (fun e => e.1 == k) = true
  · rw [if_pos h]
    exact lookup_map_replace_other k k1 v hne m
  · rw [if_neg h]
    exact lookup_append_other k k1 v hne m

theorem lookup_valuesFold_notmem (args : List String) (k : String) :
    ∀ (os : List OptParseItem) (m : List (String × String)),
      (∀ o ∈ os, o.option ≠ k) →
      List.lookup k (valuesFold os args m) = List.lookup k m := by
  intro os
  induction os with
  | nil => intro m _; rfl
  | cons o os ih =>
    intro m h
    have step : valuesFold (o :: os) args m =
        valuesFold os args (insertAssoc o.option (parse_option_value o args) m) := rfl
    rw [step, ih _ (fun o1 ho1 => h o1 (by simp [ho1]))]
    exact lookup_insertAssoc_other o.option k _ (fun hk => (h o (by simp)) hk.symm) m

theorem lookup_valuesFold_mem (args : List String) :
    ∀ (os : List OptParseItem) (o : OptParseItem) (m : List (String × String)),
      o ∈ os → (os.map (fun x => x.option)).Nodup →
      List.lookup o.option (valuesFold os args m) =
        some (parse_option_value o args) := by
  intro os
  induction os with
  | nil => intro o m h _; cases h
  | cons o0 os ih =>
    intro o m hmem hnodup
    simp only [List.map_cons, List.nodup_cons] at hnodup
    rcases List.mem_cons.mp hmem with rfl | htail
    · have hnot : ∀ o1 ∈ os, o1.option ≠ o.option := by
        intro o1 ho1 heq
        exact hnodup.1 (List.mem_map.mpr ⟨o1, ho1, heq⟩)
      have step : valuesFold (o :: os) args m =
          valuesFold os args (insertAssoc o.option (parse_option_value o args) m) := rfl
      rw [step, lookup_valuesFold_notmem args o.option os _ hnot]
      exact lookup_insertAssoc_self ..
    · exact ih o _ htail hnodup.2

/-- C6: a value-requiring spec with no token equal to its short form and no
token beginning with its long form resolves, through `get_value` on its short
key after parsing, to exactly its declared default value (the spec's short
forms being unique, as the data-model invariant of the spec requires). -/
theorem C6_absent_required_default (args : List String)
    (options : List OptParseItem) (desc : String) (fin : Bool)
    (o : OptParseItem)
    (hmem : o ∈ options)
    (hnodup : (options.map (fun x => x.option)).Nodup)
    (hreq : o.arg_required = true)
    (hshort : ∀ a ∈ args, a ≠ o.option)
    (hlong : ∀ a ∈ args, strStartsWith a o.full_option = false) :
    get_value ((parse_options (OptParse.new args options desc) fin).1) o.option
      = o.value := by
  unfold get_value
  rw [parse_options_eq]
  show (match List.lookup o.option (valuesFold options args []) with
        | some v => v
        | none => "") = o.value
  rw [lookup_valuesFold_mem args options o [] hmem hnodup]
  rw [parse_option_value_default o args hreq ?_ hlong]
  · intro i hi heq
    exact absurd heq (by
      have hm : args.getD i "" ∈ args := by
        rw [List.getD_eq_getElem args "" hi]
        exact List.getElem_mem hi
      exact hshort _ hm)

/-- Witness for C6: the `-r` (long form `--samplingRate`) spec on
`rawArgs = ["foo"]` resolves to its default `48000`. -/
theorem C6_absent_required_default_witness :
    get_value ((parse_options (OptParse.new ["foo"]
        [OptParseItem.new "-r" "--samplingRate" true "48000" "rate"] "") false).1)
      "-r" = "48000" :=
  C6_absent_required_default ["foo"]
    [OptParseItem.new "-r" "--samplingRate" true "48000" "rate"] "" false
    (OptParseItem.new "-r" "--samplingRate" true "48000" "rate")
    (List.mem_cons_self ..) (by decide) (by decide) (by decide) (by decide)

/-- C7: long-form matching is a prefix test, not exact equality; for a
value-requiring spec a matching token sets the value to the substring after
its first `=`, and a matching token without `=` leaves the value computed so
far unchanged, raising no error.  The closing conjuncts exhibit the prefix
(not exact) match on `--encoding=PCM32` and the resulting resolved value. -/
theorem C7_long_form_is_prefix_match :
    (∀ (o : OptParseItem) (args : List String) (i : Nat) (acc : String × Bool),
      o.arg_required = true →
      strStartsWith (args.getD i "") o.full_option = true →
      ((∀ p, findEqPos (args.getD i "") = some p →
          stepLong o args i acc = (strDropChars (args.getD i "") (p + 1), acc.2)) ∧
       (findEqPos (args.getD i "") = none → stepLong o args i acc = acc))) ∧
    strStartsWith "--encoding=PCM32" "--encoding" = true ∧
    get_value ((parse_options (OptParse.new ["--encoding=PCM32"]
        [OptParseItem.new "-e" "--encoding" true "PCM16" "enc"] "") false).1)
      "-e" = "PCM32" := by
  refine ⟨?_, by decide, by decide⟩
  intro o args i acc hreq hpre
  constructor
  · intro p hp
    unfold stepLong
    rw [if_pos hpre, hreq, if_pos rfl, hp]
  · intro hp
    unfold stepLong
    rw [if_pos hpre, hreq, if_pos rfl, hp]

/-- Witness for C7: the `-e` (long form `--encoding`) spec against the token
`--encoding=PCM32` takes the substring after the `=`, and against the bare
token `--encoding` leaves the accumulator unchanged. -/
theorem C7_long_form_is_prefix_match_witness :
    stepLong (OptParseItem.new "-e" "--encoding" true "PCM16" "enc")
      ["--encoding=PCM32"] 0 ("PCM16", false) = ("PCM32", false) ∧
    stepLong (OptParseItem.new "-e" "--encoding" true "PCM16" "enc")
      ["--encoding"] 0 ("PCM16", false) = ("PCM16", false) :=
  ⟨(C7_long_form_is_prefix_match.1 _ _ _ _ (by decide) (by decide)).1 10 (by decide),
   (C7_long_form_is_prefix_match.1 _ _ _ _ (by decide) (by decide)).2 (by decide)⟩

/-! Characterization of one scan iteration for value-requiring specs, and
flag monotonicity for the `found_set_true` path. -/

theorem parseStep_required_char (o : OptParseItem) (args : List String)
    (hreq : o.arg_required = true) (i : Nat) (acc : String × Bool) :
    parseStep o args acc i = ((stepSets o args i).getD acc.1, acc.2) := by
  unfold parseStep stepShort stepLong stepSets
  generalize args.getD i "" = a
  generalize args.getD (i + 1) "" = b
  by_cases h1 : a = o.option <;>
  by_cases h2 : i + 1 < args.length <;>
  by_cases h3 : strStartsWith b "-" = true <;>
  by_cases h4 : strStartsWith a o.full_option = true <;>
  cases h5 : findEqPos a <;>
  simp [hreq, h1, h2, h3, h4, h5] <;>
  by_cases h6 : strStartsWith o.option o.full_option = true <;>
  simp [h6]

theorem parseStep_flag_mono (o : OptParseItem) (args : List String) (i : Nat)
    (acc : String × Bool) (h : acc.2 = true) :
    (parseStep o args acc i).2 = true := by
  unfold parseStep stepShort stepLong
  generalize args.getD i "" = a
  generalize args.getD (i + 1) "" = b
  by_cases h1 : a = o.option <;>
  by_cases hr : o.arg_required = true <;>
  by_cases h2 : i + 1 < args.length <;>
  by_cases h3 : strStartsWith b "-" = true <;>
  by_cases h4 : strStartsWith a o.full_option = true <;>
  cases h5 : findEqPos a <;>
  simp [h, h1, hr, h2, h3, h4, h5] <;>
  by_cases h6 : strStartsWith o.option o.full_option = true <;>
  simp [h6, h]

theorem parseStep_flag_set (o : OptParseItem) (args : List String) (i : Nat)
    (hreq : o.arg_required = false)
    (hm : args.getD i "" = o.option ∨
      strStartsWith (args.getD i "") o.full_option = true) :
    ∀ acc, (parseStep o args acc i).2 = true := by
  intro acc
  unfold parseStep stepShort stepLong
  revert hm
  generalize args.getD i "" = a
  generalize args.getD (i + 1) "" = b
  intro hm
  by_cases h1 : a = o.option <;>
  by_cases h2 : i + 1 < args.length <;>
  by_cases h3 : strStartsWith b "-" = true <;>
  by_cases h4 : strStartsWith a o.full_option = true <;>
  cases h5 : findEqPos a <;>
  simp [hreq, h1, h2, h3, h4, h5] <;>
  rcases hm with hm1 | hm2 <;>
  simp_all

theorem foldl_parseStep_flag (o : OptParseItem) (args : List String)
    (hreq : o.arg_required = true) :
    ∀ (l : List Nat) (acc : String × Bool),
      (l.foldl (parseStep o args) acc).2 = acc.2 := by
  intro l
  induction l with
  | nil => intro acc; rfl
  | cons x xs ih =>
    intro acc
    simp only [List.foldl_cons]
    rw [ih, parseStep_required_char o args hreq]

theorem foldl_parseStep_none (o : OptParseItem) (args : List String)
    (hreq : o.arg_required = true) :
    ∀ (m s : Nat) (acc : String × Bool),
      (∀ k, s ≤ k → k < s + m → stepSets o args k = none) →
      (List.range' s m).foldl (parseStep o args) acc = acc := by
  intro m
  induction m with
  | zero => intro s acc _; rfl
  | succ m ih =>
    intro s acc h
    rw [List.range'_succ]
    simp only [List.foldl_cons]
    rw [parseStep_required_char o args hreq, h s (le_refl s) (by omega)]
    show (List.range' (s + 1) m).foldl (parseStep o args) (acc.1, acc.2) = acc
    rw [show ((acc.1 : String), acc.2) = acc from rfl]
    exact ih (s + 1) acc (fun k hk1 hk2 => h k (by omega) (by omega))

/-- C5: during per-spec resolution, a spec with `requiresValue = false` that
is hit anywhere (exact short token or long-form prefix) resolves to the
literal string `"true"` regardless of the declared default and of any value
computed elsewhere in the scan (first conjunct); for a value-requiring spec
the last value-setting match of the left-to-right scan determines the final
value (second conjunct, last-match-wins). -/
theorem C5_last_match_wins_and_flag :
    (∀ (o : OptParseItem) (args : List String),
      o.arg_required = false →
      (∃ i, i < args.length ∧ (args.getD i "" = o.option ∨
          strStartsWith (args.getD i "") o.full_option = true)) →
      parse_option_value o args = "true") ∧
    (∀ (o : OptParseItem) (args : List String) (j : Nat) (v : String),
      o.arg_required = true → j < args.length →
      stepSets o args j = some v →
      (∀ k, k < args.length → j < k → stepSets o args k = none) →
      parse_option_value o args = v) := by
  constructor
  · intro o args hreq hex
    rcases hex with ⟨i, hi, hm⟩
    have hflag : ((List.range args.length).foldl (parseStep o args) (o.value, false)).2 = true :=
      foldl_reaches (parseStep o args) (fun r => r.2 = true)
        (fun b x hb => parseStep_flag_mono o args x b hb) i
        (parseStep_flag_set o args i hreq hm)
        (List.range args.length) (o.value, false) (List.mem_range.mpr hi)
    unfold parse_option_value
    simp [hflag]
  · intro o args j v hreq hj hset hnone
    unfold parse_option_value
    rw [List.range_eq_range']
    have h1 := List.range'_append 0 j 1 1
    simp only [Nat.one_mul, Nat.zero_add, List.range'_one] at h1
    rw [Nat.add_comm 1 j] at h1
    have h2 := List.range'_append 0 (j + 1) (args.length - (j + 1)) 1
    simp only [Nat.one_mul, Nat.zero_add] at h2
    rw [show args.length - (j + 1) + (j + 1) = args.length from by omega] at h2
    have hsplit : List.range' 0 args.length =
        (List.range' 0 j ++ [j]) ++ List.range' (j + 1) (args.length - (j + 1)) := by
      rw [h1, h2]
    rw [hsplit, List.foldl_append, List.foldl_append]
    simp only [List.foldl_cons, List.foldl_nil]
    rw [parseStep_required_char o args hreq j _, hset]
    have hflag : ((List.range' 0 j).foldl (parseStep o args) (o.value, false)).2 = false := by
      rw [foldl_parseStep_flag o args hreq]
    rw [hflag]
    simp only [Option.getD_some]
    rw [foldl_parseStep_none o args hreq (args.length - (j + 1)) (j + 1) (v, false)
      (fun k hk1 hk2 => hnone k (by omega) (by omega))]
    rfl

/-- Witness for C5: the flag `-v` present in `["-v"]` resolves to `"true"`
although its default is `"false"`; the required `-r` on
`["-r", "1", "-r", "2"]` resolves to the later value `"2"`. -/
theorem C5_last_match_wins_and_flag_witness :
    parse_option_value (OptParseItem.new "-v" "--verbose" false "false" "verbose")
      ["-v"] = "true" ∧
    parse_option_value (OptParseItem.new "-r" "--samplingRate" true "48000" "rate")
      ["-r", "1", "-r", "2"] = "2" :=
  ⟨C5_last_match_wins_and_flag.1 _ _ (by decide) (by decide),
   C5_last_match_wins_and_flag.2 _ _ 2 "2" (by decide) (by decide) (by decide) (by decide)⟩

/-! The positional pass: fuel irrelevance, an unfolding law, and agreement
with the claim-side description under the uniqueness invariant. -/

theorem collectArgsGo_fuel (options : List OptParseItem) (args : List String) :
    ∀ (f1 f2 i : Nat), args.length - i ≤ f1 → args.length - i ≤ f2 →
      collectArgsGo options args i f1 = collectArgsGo options args i f2 := by
  intro f1
  induction f1 with
  | zero =>
    intro f2 i h1 h2
    cases f2 with
    | zero => rfl
    | succ f2 =>
      show ([] : List String) = collectArgsGo options args i (f2 + 1)
      unfold collectArgsGo
      rw [if_neg (by omega)]
  | succ f1 ih =>
    intro f2 i h1 h2
    cases f2 with
    | zero =>
      show collectArgsGo options args i (f1 + 1) = ([] : List String)
      unfold collectArgsGo
      rw [if_neg (by omega)]
    | succ f2 =>
      show collectArgsGo options args i (f1 + 1) = collectArgsGo options args i (f2 + 1)
      unfold collectArgsGo
      by_cases hi : i < args.length
      · rw [if_pos hi, if_pos hi]
        by_cases hd : strStartsWith (args.getD i "") "-" = true
        · rw [if_pos hd, if_pos hd]
          exact ih f2 _ (by omega) (by omega)
        · rw [if_neg hd, if_neg hd, ih f2 (i + 1) (by omega) (by omega)]
      · rw [if_neg hi, if_neg hi]

theorem collectArgs_unfold (options : List OptParseItem) (args : List String)
    (i : Nat) :
    collectArgs options args i =
      if i < args.length then
        if strStartsWith (args.getD i "") "-" = true then
          collectArgs options args (i + skipCount options (args.getD i "") + 1)
        else
          args.getD i "" :: collectArgs options args (i + 1)
      else [] := by
  unfold collectArgs
  by_cases hi : i < args.length
  · rw [if_pos hi]
    have hf : args.length - i = (args.length - (i + 1)) + 1 := by omega
    rw [hf]
    show (if i < args.length then
        if strStartsWith (args.getD i "") "-" = true then
          collectArgsGo options args (i + skipCount options (args.getD i "") + 1)
            (args.length - (i + 1))
        else
          args.getD i "" :: collectArgsGo options args (i + 1) (args.length - (i + 1))
      else []) = _
    rw [if_pos hi]
    by_cases hd : strStartsWith (args.getD i "") "-" = true
    · rw [if_pos hd, if_pos hd]
      exact collectArgsGo_fuel options args _ _ _ (by omega) (by omega)
    · rw [if_neg hd, if_neg hd]
  · rw [if_neg hi]
    cases hf : args.length - i with
    | zero => rfl
    | succ f => omega

theorem skipCount_le_one (options : List OptParseItem)
    (hnodup : ((options.filter (fun o => o.arg_required)).map
        (fun o => o.option)).Nodup)
    (a : String) : skipCount options a ≤ 1 := by
  unfold skipCount
  rw [show (fun o : OptParseItem => (a == o.option) && o.arg_required)
      = (fun o : OptParseItem => (a == o.option) && (fun o : OptParseItem => o.arg_required) o)
    from rfl]
  rw [← List.countP_filter]
  have h2 : (options.filter (fun o => o.arg_required)).countP (fun o => a == o.option)
      = ((options.filter (fun o => o.arg_required)).map (fun o => o.option)).countP
          (fun s => a == s) := by
    rw [List.countP_map]
    rfl
  rw [h2]
  have h3 : ((options.filter (fun o => o.arg_required)).map (fun o => o.option)).countP
        (fun s => a == s)
      = ((options.filter (fun o => o.arg_required)).map (fun o => o.option)).count a := by
    apply List.countP_congr
    intro x _
    constructor
    · intro h
      simpa [beq_iff_eq] using (beq_iff_eq.mp h).symm
    · intro h
      simpa [beq_iff_eq] using (beq_iff_eq.mp h).symm
  rw [h3]
  exact List.nodup_iff_count_le_one.mp hnodup a

theorem positionalsSpec_cons (options : List OptParseItem) (a : String)
    (rest : List String) :
    positionalsSpec options (a :: rest) =
      if strStartsWith a "-" = true then
        if options.any (fun o => (a == o.option) && o.arg_required) = true then
          (match rest with
           | [] => []
           | _ :: rest2 => positionalsSpec options rest2)
        else positionalsSpec options rest
      else a :: positionalsSpec options rest := by
  rw [positionalsSpec.eq_def]

theorem collectArgs_eq_positionalsSpec (options : List OptParseItem)
    (args : List String) (hcnt : ∀ a, skipCount options a ≤ 1) :
    ∀ (n i : Nat), args.length - i ≤ n →
      collectArgs options args i = positionalsSpec options (args.drop i) := by
  intro n
  induction n with
  | zero =>
    intro i h
    rw [collectArgs_unfold, if_neg (by omega),
      List.drop_eq_nil_iff.mpr (by omega)]
    rfl
  | succ n ih =>
    intro i h
    by_cases hi : i < args.length
    · rw [collectArgs_unfold, if_pos hi]
      rw [List.drop_eq_getElem_cons hi, ← List.getD_eq_getElem args "" hi]
      by_cases hd : strStartsWith (args.getD i "") "-" = true
      · rw [if_pos hd]
        show _ = positionalsSpec options (args.getD i "" :: args.drop (i + 1))
        rw [positionalsSpec_cons, if_pos hd]
        by_cases hany : options.any
            (fun o => (args.getD i "" == o.option) && o.arg_required) = true
        · rw [if_pos hany]
          have h1 : skipCount options (args.getD i "") = 1 := by
            have hpos : 0 < skipCount options (args.getD i "") := by
              unfold skipCount
              exact List.countP_pos_iff.mpr (List.any_eq_true.mp hany)
            have := hcnt (args.getD i "")
            omega
          rw [h1]
          cases hdrop : args.drop (i + 1) with
          | nil =>
            have hlen : args.length ≤ i + 1 := List.drop_eq_nil_iff.mp hdrop
            rw [collectArgs_unfold, if_neg (by omega)]
          | cons b rest2 =>
            have hrest : rest2 = args.drop (i + 2) := by
              have ht := List.tail_drop args (i + 1)
              rw [hdrop] at ht
              exact ht
            rw [hrest]
            exact ih (i + 2) (by omega)
        · rw [if_neg hany]
          have h0 : skipCount options (args.getD i "") = 0 := by
            unfold skipCount
            rw [List.countP_eq_zero]
            intro o ho
            have hf : options.any
                (fun o => (args.getD i "" == o.option) && o.arg_required) = false := by
              cases hx : options.any
                  (fun o => (args.getD i "" == o.option) && o.arg_required) with
              | false => rfl
              | true => exact absurd hx hany
            exact fun hp => (List.any_eq_false.mp hf o ho) hp
          rw [h0]
          exact ih (i + 1) (by omega)
      · rw [if_neg hd]
        show _ = positionalsSpec options (args.getD i "" :: args.drop (i + 1))
        rw [positionalsSpec_cons, if_neg hd, ih (i + 1) (by omega)]
    · rw [collectArgs_unfold, if_neg hi,
        List.drop_eq_nil_iff.mpr (by omega)]
      rfl

/-- C3: after a bare parse, the positional list is exactly the one described
by the specification's single left-to-right pass: a dash token matching the
short form of a value-requiring spec additionally skips the single token
after it, any other dash token is skipped alone, and every other token is
appended in order (under the spec's invariant that short forms of
value-requiring specs are not duplicated). -/
theorem C3_positional_pass (args : List String) (options : List OptParseItem)
    (desc : String)
    (hnodup : ((options.filter (fun o => o.arg_required)).map
        (fun o => o.option)).Nodup) :
    ((parse_options (OptParse.new args options desc) false).1).arg_values =
      positionalsSpec options args := by
  rw [parse_options_eq]
  show ([] : List String) ++
      (if (false && hasHelp args) = true then [] else collectArgs options args 0)
    = positionalsSpec options args
  rw [List.nil_append, if_neg (by simp)]
  rw [collectArgs_eq_positionalsSpec options args
    (fun a => skipCount_le_one options hnodup a) args.length 0 (by omega)]
  rw [List.drop_zero]

/-- Witness for C3: the specification's own positional-extraction example,
`["input.csv", "-v", "output1.csv", "--samplingRate=44100", "output2.csv"]`
with a `-v` flag spec and a value-requiring `-s` spec. -/
theorem C3_positional_pass_witness :
    ((parse_options (OptParse.new
        ["input.csv", "-v", "output1.csv", "--samplingRate=44100", "output2.csv"]
        [OptParseItem.new "-v" "--verbose" false "false" "verbose",
         OptParseItem.new "-s" "--samplingRate" true "48000" "rate"] "") false).1).arg_values
      = positionalsSpec
          [OptParseItem.new "-v" "--verbose" false "false" "verbose",
           OptParseItem.new "-s" "--samplingRate" true "48000" "rate"]
          ["input.csv", "-v", "output1.csv", "--samplingRate=44100", "output2.csv"] :=
  C3_positional_pass _ _ "" (by decide)

/-- C10: space-separated long-form values are unsupported: on raw arguments
`[long, value]` for a value-requiring spec whose long form is its own token
(no `=`), the spec's resolved value stays at its default, and the following
token is classified as a positional rather than consumed as the value. -/
theorem C10_no_space_separated_long_value (s : OptParseItem) (v desc : String)
    (hreq : s.arg_required = true)
    (hdash : strStartsWith s.full_option "-" = true)
    (hvdash : strStartsWith v "-" = false)
    (hneq : s.option ≠ s.full_option)
    (hnoeq : findEqPos s.full_option = none)
    (hvlong : strStartsWith v s.full_option = false) :
    get_value ((parse_options (OptParse.new [s.full_option, v] [s] desc) false).1)
      s.option = s.value ∧
    ((parse_options (OptParse.new [s.full_option, v] [s] desc) false).1).arg_values
      = [v] := by
  have g0 : ([s.full_option, v].getD 0 "") = s.full_option := rfl
  have g1 : ([s.full_option, v].getD 1 "") = v := rfl
  have hso : ¬ (s.full_option = s.option) := fun h => hneq h.symm
  have hs0 : stepSets s [s.full_option, v] 0 = none := by
    unfold stepSets
    rw [g0, g1, hnoeq]
    simp [hso]
  have hs1 : stepSets s [s.full_option, v] 1 = none := by
    unfold stepSets
    rw [g1, hvlong]
    simp
  have hval : parse_option_value s [s.full_option, v] = s.value := by
    unfold parse_option_value
    rw [List.range_eq_range']
    show (if (List.foldl (parseStep s [s.full_option, v]) (s.value, false)
          (List.range' 0 2)).2 = true then "true"
        else (List.foldl (parseStep s [s.full_option, v]) (s.value, false)
          (List.range' 0 2)).1) = s.value
    rw [foldl_parseStep_none s [s.full_option, v] hreq 2 0 (s.value, false) ?_]
    · rfl
    · intro k hk1 hk2
      match k with
      | 0 => exact hs0
      | 1 => exact hs1
      | k + 2 => omega
  constructor
  · unfold get_value
    rw [parse_options_eq]
    show (match List.lookup s.option (valuesFold [s] [s.full_option, v] []) with
          | some v1 => v1
          | none => "") = s.value
    rw [lookup_valuesFold_mem [s.full_option, v] [s] s [] (List.mem_cons_self ..)
      (by simp), hval]
  · rw [parse_options_eq]
    show ([] : List String) ++
        (if (false && hasHelp [s.full_option, v]) = true then []
         else collectArgs [s] [s.full_option, v] 0) = [v]
    rw [List.nil_append, if_neg (by simp)]
    have hskip : skipCount [s] s.full_option = 0 := by
      unfold skipCount
      simp [beq_eq_false_iff_ne.mpr (fun h => hneq h.symm)]
    rw [collectArgs_unfold, if_pos (by simp), g0, if_pos hdash, hskip]
    rw [collectArgs_unfold, if_pos (by simp), g1,
      if_neg (by rw [hvdash]; exact Bool.false_ne_true)]
    rw [collectArgs_unfold, if_neg (by simp)]

/-- Witness for C10: the value-requiring `-s` spec with long form
`--longForm` on raw arguments `["--longForm", "value"]`. -/
theorem C10_no_space_separated_long_value_witness :
    get_value ((parse_options (OptParse.new ["--longForm", "value"]
        [OptParseItem.new "-s" "--longForm" true "48000" "d"] "") false).1)
      "-s" = "48000" ∧
    ((parse_options (OptParse.new ["--longForm", "value"]
        [OptParseItem.new "-s" "--longForm" true "48000" "d"] "") false).1).arg_values
      = ["value"] :=
  C10_no_space_separated_long_value
    (OptParseItem.new "-s" "--longForm" true "48000" "d") "value" ""
    (by decide) (by decide) (by decide) (by decide) (by decide) (by decide)

/-! Totality: the instrumented (partial-indexing) variants always succeed and
agree with the plain embedding. -/

theorem foldl_option_some {α β : Type} (f : β → α → β) (g : β → α → Option β) :
    ∀ (l : List α) (b : β), (∀ b1 x, x ∈ l → g b1 x = some (f b1 x)) →
      l.foldl (fun acc x => acc.bind (fun a => g a x)) (some b) =
        some (l.foldl f b) := by
  intro l
  induction l with
  | nil => intro b _; rfl
  | cons x xs ih =>
    intro b h
    simp only [List.foldl_cons, Option.some_bind]
    rw [h b x (by simp)]
    exact ih _ (fun b1 y hy => h b1 y (by simp [hy]))

theorem parseStepChecked_eq (o : OptParseItem) (args : List String)
    (acc : String × Bool) (i : Nat) (h : i < args.length) :
    parseStepChecked o args acc i = some (parseStep o args acc i) := by
  have hD : args.getD i "" = args[i] := List.getD_eq_getElem args "" h
  unfold parseStepChecked parseStep stepShort stepLong
  rw [List.getElem?_eq_getElem h, hD]
  simp only [Option.some_bind]
  by_cases h2 : i + 1 < args.length
  · have hD2 : args.getD (i + 1) "" = args[i + 1] := List.getD_eq_getElem args "" h2
    rw [List.getElem?_eq_getElem h2, hD2]
    by_cases h1 : args[i] = o.option <;>
    by_cases hr : o.arg_required = true <;>
    by_cases h3 : strStartsWith args[i + 1] "-" = true <;>
    by_cases h4 : strStartsWith args[i] o.full_option = true <;>
    cases h5 : findEqPos args[i] <;>
    simp [h1, hr, h2, h3, h4, h5]
  · by_cases h1 : args[i] = o.option <;>
    by_cases hr : o.arg_required = true <;>
    by_cases h4 : strStartsWith args[i] o.full_option = true <;>
    cases h5 : findEqPos args[i] <;>
    simp [h1, hr, h2, h4, h5]

theorem parse_option_value_checked_eq (o : OptParseItem) (args : List String) :
    parse_option_value_checked o args = some (parse_option_value o args) := by
  unfold parse_option_value_checked parse_option_value
  rw [foldl_option_some (parseStep o args)
    (fun a i => parseStepChecked o args a i)
    (List.range args.length) (o.value, false)
    (fun a i hi => parseStepChecked_eq o args a i (List.mem_range.mp hi))]
  rfl

theorem hasHelpCheckedGo_some (args : List String) :
    ∀ (fuel i : Nat), args.length - i ≤ fuel →
      hasHelpCheckedGo args i fuel =
        some ((args.drop i).any (fun a => (a == "-h") || strStartsWith a "--help")) := by
  intro fuel
  induction fuel with
  | zero =>
    intro i h
    rw [List.drop_eq_nil_iff.mpr (by omega)]
    rfl
  | succ fuel ih =>
    intro i h
    show (if i < args.length then _ else _) = _
    by_cases hi : i < args.length
    · rw [if_pos hi, List.getElem?_eq_getElem hi]
      simp only [Option.some_bind]
      rw [ih (i + 1) (by omega)]
      simp only [Option.map_some']
      rw [List.drop_eq_getElem_cons hi, List.any_cons]
    · rw [if_neg hi, List.drop_eq_nil_iff.mpr (by omega)]
      rfl

theorem collectArgsGoChecked_eq (options : List OptParseItem)
    (args : List String) :
    ∀ (fuel i : Nat),
      collectArgsGoChecked options args i fuel =
        some (collectArgsGo options args i fuel) := by
  intro fuel
  induction fuel with
  | zero => intro i; rfl
  | succ fuel ih =>
    intro i
    show (if i < args.length then _ else _) = _
    by_cases hi : i < args.length
    · have hD : args.getD i "" = args[i] := List.getD_eq_getElem args "" hi
      show (if i < args.length then
          (args[i]?).bind fun arg =>
            if strStartsWith arg "-" then
              collectArgsGoChecked options args (i + skipCount options arg + 1) fuel
            else
              (collectArgsGoChecked options args (i + 1) fuel).map (fun l => arg :: l)
        else some []) = _
      rw [if_pos hi, List.getElem?_eq_getElem hi]
      simp only [Option.some_bind]
      show _ = some (if i < args.length then
          if strStartsWith (args.getD i "") "-" then
            collectArgsGo options args (i + skipCount options (args.getD i "") + 1) fuel
          else
            args.getD i "" :: collectArgsGo options args (i + 1) fuel
        else [])
      rw [if_pos hi, hD]
      by_cases hd : strStartsWith args[i] "-" = true
      · rw [if_pos hd, if_pos hd]
        exact ih _
      · rw [if_neg hd, if_neg hd, ih (i + 1)]
        simp only [Option.map_some']
    · rw [if_neg hi]
      show _ = some (if i < args.length then _ else [])
      rw [if_neg hi]

theorem parse_options_checked_eq (p : OptParse) (fin : Bool) :
    parse_options_checked p fin = some (parse_options p fin) := by
  unfold parse_options_checked parse_options
  rw [foldl_option_some parse_option
    (fun q o => (parse_option_value_checked o q.args).map
      (fun v1 => { q with values := insertAssoc o.option v1 q.values }))
    p.options p ?_]
  · simp only [Option.some_bind]
    rw [hasHelpCheckedGo_some (p.options.foldl parse_option p).args
      (p.options.foldl parse_option p).args.length 0 (by omega), List.drop_zero]
    simp only [Option.some_bind]
    by_cases hh : (fin && hasHelp (p.options.foldl parse_option p).args) = true
    · rw [if_pos (show (fin && ((p.options.foldl parse_option p).args.any
          (fun a => (a == "-h") || strStartsWith a "--help"))) = true from hh),
        if_pos hh]
    · rw [if_neg (show ¬ (fin && ((p.options.foldl parse_option p).args.any
          (fun a => (a == "-h") || strStartsWith a "--help"))) = true from hh),
        if_neg hh]
      rw [collectArgsGoChecked_eq]
      simp only [Option.map_some']
      rfl
  · intro q o _
    show (parse_option_value_checked o q.args).map
        (fun v1 => { q with values := insertAssoc o.option v1 q.values })
      = some (parse_option q o)
    rw [parse_option_value_checked_eq]
    rfl

theorem get_args_checked_eq (p : OptParse) (index : Nat) :
    get_args_checked p index = some (get_args p index) := by
  unfold get_args_checked get_args
  by_cases h : index < get_args_count p
  · rw [if_pos h, if_pos h, List.getElem?_eq_getElem h,
      List.getD_eq_getElem p.arg_values "" h]
  · rw [if_neg h, if_neg h]

/-- C9: every operation is total: the instrumented variants of `parse_options`
(per-spec resolution with its `i+1` lookahead, help detection, positional
pass) and of `get_args`, in which every indexing of a list is partial and
fails on any out-of-bounds access, always return `some` of the plain result —
so the embedded code never indexes out of bounds and never panics, for every
argument list, spec list and index. -/
theorem C9_totality_no_out_of_bounds :
    (∀ (p : OptParse) (fin : Bool),
      parse_options_checked p fin = some (parse_options p fin)) ∧
    (∀ (o : OptParseItem) (args : List String),
      parse_option_value_checked o args = some (parse_option_value o args)) ∧
    (∀ (p : OptParse) (index : Nat),
      get_args_checked p index = some (get_args p index)) :=
  ⟨parse_options_checked_eq, parse_option_value_checked_eq, get_args_checked_eq⟩

/-! Idempotence of the per-spec resolution on the values map: machinery. -/

theorem valuesFold_cons (o : OptParseItem) (os : List OptParseItem)
    (args : List String) (m : List (String × String)) :
    valuesFold (o :: os) args m =
      valuesFold os args (insertAssoc o.option (parse_option_value o args) m) := rfl

theorem map_replace_of_presentWith (k v : String) :
    ∀ m : List (String × String), (∀ e ∈ m, e.1 = k → e.2 = v) →
      m.map (fun e => if e.1 = k then (k, v) else e) = m := by
  intro m
  induction m with
  | nil => intro _; rfl
  | cons e m ih =>
    intro h
    obtain ⟨ek, ev⟩ := e
    simp only [List.map_cons]
    rw [ih (fun f hf hfk => h f (by simp [hf]) hfk)]
    by_cases hek : ek = k
    · rw [if_pos (by simpa using hek)]
      have hev : ev = v := h (ek, ev) (by simp) hek
      rw [hek, hev]
    · rw [if_neg (by simpa using hek)]

theorem insertAssoc_of_presentWith (k v : String) (m : List (String × String))
    (h : presentWith m k v) : insertAssoc k v m = m := by
  unfold insertAssoc
  rcases h with ⟨⟨e0, he0, hk0⟩, hall⟩
  have hany : (m.any fun e => e.1 == k) = true :=
    List.any_eq_true.mpr ⟨e0, he0, beq_iff_eq.mpr hk0⟩
  rw [if_pos hany]
  exact map_replace_of_presentWith k v m hall

theorem presentWith_insertAssoc_self (k v : String)
    (m : List (String × String)) : presentWith (insertAssoc k v m) k v := by
  unfold insertAssoc presentWith
  by_cases hk : m.any (fun e => e.1 == k) = true
  · rw [if_pos hk]
    constructor
    · rcases List.any_eq_true.mp hk with ⟨e0, he0, hk0⟩
      refine ⟨(k, v), List.mem_map.mpr ⟨e0, he0, ?_⟩, rfl⟩
      rw [if_pos (beq_iff_eq.mp hk0)]
    · intro e he hek
      rcases List.mem_map.mp he with ⟨f, hf, hfe⟩
      by_cases hfk : f.1 = k
      · rw [if_pos hfk] at hfe
        rw [← hfe]
      · rw [if_neg hfk] at hfe
        rw [← hfe] at hek
        exact absurd hek hfk
  · rw [if_neg hk]
    constructor
    · exact ⟨(k, v), by simp, rfl⟩
    · intro e he hek
      rcases List.mem_append.mp he with hm | htail
      · have hf : m.any (fun e => e.1 == k) = false := by
          cases hx : m.any (fun e => e.1 == k) with
          | false => rfl
          | true => exact absurd hx hk
        exact absurd (beq_iff_eq.mpr hek) (List.any_eq_false.mp hf e hm)
      · have he2 : e = (k, v) := by simpa using htail
        rw [he2]

theorem presentWith_insertAssoc_keep (k v k1 v1 : String) (hne : k1 ≠ k)
    (m : List (String × String)) (h : presentWith m k1 v1) :
    presentWith (insertAssoc k v m) k1 v1 := by
  obtain ⟨⟨e0, he0, hk0⟩, hall⟩ := h
  unfold insertAssoc presentWith
  by_cases hk : m.any (fun e => e.1 == k) = true
  · rw [if_pos hk]
    constructor
    · refine ⟨e0, List.mem_map.mpr ⟨e0, he0, ?_⟩, hk0⟩
      rw [if_neg (by rw [hk0]; exact hne)]
    · intro e he hek
      rcases List.mem_map.mp he with ⟨f, hf, hfe⟩
      by_cases hfk : f.1 = k
      · rw [if_pos hfk] at hfe
        rw [← hfe] at hek
        exact absurd hek.symm (Ne.symm (fun hx => hne hx.symm))
      · rw [if_neg hfk] at hfe
        rw [← hfe] at hek ⊢
        exact hall f hf hek
  · rw [if_neg hk]
    constructor
    · exact ⟨e0, List.mem_append.mpr (Or.inl he0), hk0⟩
    · intro e he hek
      rcases List.mem_append.mp he with hm | htail
      · exact hall e hm hek
      · have he2 : e = (k, v) := by simpa using htail
        rw [he2] at hek
        exact absurd hek (Ne.symm hne)

theorem hasKey_insertAssoc_self (k v : String) (m : List (String × String)) :
    hasKey (insertAssoc k v m) k = true := by
  have h := (presentWith_insertAssoc_self k v m).1
  rcases h with ⟨e, he, hek⟩
  exact List.any_eq_true.mpr ⟨e, he, beq_iff_eq.mpr hek⟩

theorem hasKey_insertAssoc_mono (k v k1 : String) (m : List (String × String))
    (h : hasKey m k1 = true) : hasKey (insertAssoc k v m) k1 = true := by
  unfold hasKey at h ⊢
  rcases List.any_eq_true.mp h with ⟨e0, he0, hk0⟩
  unfold insertAssoc
  by_cases hk : m.any (fun e => e.1 == k) = true
  · rw [if_pos hk]
    by_cases hek : e0.1 = k
    · refine List.any_eq_true.mpr ⟨(k, v), List.mem_map.mpr ⟨e0, he0, by rw [if_pos hek]⟩, ?_⟩
      have h1 : e0.1 = k1 := beq_iff_eq.mp hk0
      exact beq_iff_eq.mpr (by rw [← hek]; exact h1)
    · exact List.any_eq_true.mpr ⟨e0, List.mem_map.mpr ⟨e0, he0, by rw [if_neg hek]⟩, hk0⟩
  · rw [if_neg hk]
    exact List.any_eq_true.mpr ⟨e0, List.mem_append.mpr (Or.inl he0), hk0⟩

theorem presentWith_valuesFold (args : List String) (k1 v1 : String) :
    ∀ (os : List OptParseItem) (m : List (String × String)),
      (∀ o ∈ os, o.option ≠ k1) → presentWith m k1 v1 →
      presentWith (valuesFold os args m) k1 v1 := by
  intro os
  induction os with
  | nil => intro m _ h; exact h
  | cons o os ih =>
    intro m hno h
    rw [valuesFold_cons]
    exact ih _ (fun o1 h1 => hno o1 (by simp [h1]))
      (presentWith_insertAssoc_keep o.option (parse_option_value o args) k1 v1
        (fun he => (hno o (by simp)) he.symm) m h)

theorem hasKey_valuesFold_mono (args : List String) (k1 : String) :
    ∀ (os : List OptParseItem) (m : List (String × String)),
      hasKey m k1 = true → hasKey (valuesFold os args m) k1 = true := by
  intro os
  induction os with
  | nil => intro m h; exact h
  | cons o os ih =>
    intro m h
    rw [valuesFold_cons]
    exact ih _ (hasKey_insertAssoc_mono o.option (parse_option_value o args) k1 m h)

theorem DiffOnly_nil_eq : ∀ X Y : List (String × String), DiffOnly [] X Y → X = Y := by
  intro X
  induction X with
  | nil =>
    intro Y h
    cases Y with
    | nil => rfl
    | cons f ys => exact absurd h (by simp [DiffOnly])
  | cons e xs ih =>
    intro Y h
    cases Y with
    | nil => exact absurd h (by simp [DiffOnly])
    | cons f ys =>
      obtain ⟨h1, h2, h3⟩ := h
      rw [h2 (by simp), ih ys h3]

theorem hasKey_eq_of_DiffOnly (ks : List String) :
    ∀ (X Y : List (String × String)), DiffOnly ks X Y →
      ∀ k, hasKey X k = hasKey Y k := by
  intro X
  induction X with
  | nil =>
    intro Y h k
    cases Y with
    | nil => rfl
    | cons f ys => exact absurd h (by simp [DiffOnly])
  | cons e xs ih =>
    intro Y h k
    cases Y with
    | nil => exact absurd h (by simp [DiffOnly])
    | cons f ys =>
      obtain ⟨h1, h2, h3⟩ := h
      unfold hasKey
      simp only [List.any_cons]
      rw [h1]
      have hxs := ih ys h3 k
      unfold hasKey at hxs
      rw [hxs]

theorem DiffOnly_map_replace (q v : String) (ks : List String) :
    ∀ (X Y : List (String × String)), DiffOnly (q :: ks) X Y →
      DiffOnly ks (X.map (fun e => if e.1 = q then (q, v) else e))
        (Y.map (fun e => if e.1 = q then (q, v) else e)) := by
  intro X
  induction X with
  | nil =>
    intro Y h
    cases Y with
    | nil => trivial
    | cons f ys => exact absurd h (by simp [DiffOnly])
  | cons e xs ih =>
    intro Y h
    cases Y with
    | nil => exact absurd h (by simp [DiffOnly])
    | cons f ys =>
      obtain ⟨h1, h2, h3⟩ := h
      simp only [List.map_cons]
      by_cases hq : e.1 = q
      · rw [if_pos hq, if_pos (h1 ▸ hq)]
        exact ⟨rfl, fun _ => rfl, ih ys h3⟩
      · rw [if_neg hq, if_neg (h1 ▸ hq)]
        refine ⟨h1, ?_, ih ys h3⟩
        intro hnot
        exact h2 (fun hc => (List.mem_cons.mp hc).elim hq hnot)

theorem DiffOnly_append_new (q v : String) (ks : List String) :
    ∀ (X Y : List (String × String)), DiffOnly (q :: ks) X Y →
      (∀ e ∈ X, (e.1 == q) = false) →
      DiffOnly ks (X ++ [(q, v)]) (Y ++ [(q, v)]) := by
  intro X
  induction X with
  | nil =>
    intro Y h _
    cases Y with
    | nil => exact ⟨rfl, fun _ => rfl, trivial⟩
    | cons f ys => exact absurd h (by simp [DiffOnly])
  | cons e xs ih =>
    intro Y h hX
    cases Y with
    | nil => exact absurd h (by simp [DiffOnly])
    | cons f ys =>
      obtain ⟨h1, h2, h3⟩ := h
      simp only [List.cons_append]
      refine ⟨h1, ?_, ih ys h3 (fun g hg => hX g (by simp [hg]))⟩
      intro hnot
      apply h2
      intro hc
      rcases List.mem_cons.mp hc with hc1 | hc2
      · have hb := hX e (by simp)
        rw [beq_iff_eq.mpr hc1] at hb
        exact absurd hb (by decide)
      · exact hnot hc2

theorem DiffOnly_insertAssoc (q v : String) (ks : List String)
    (X Y : List (String × String)) (h : DiffOnly (q :: ks) X Y) :
    DiffOnly ks (insertAssoc q v X) (insertAssoc q v Y) := by
  have hk := hasKey_eq_of_DiffOnly (q :: ks) X Y h q
  unfold hasKey at hk
  unfold insertAssoc
  by_cases hkX : X.any (fun e => e.1 == q) = true
  · rw [if_pos hkX, if_pos (by rw [← hk]; exact hkX)]
    exact DiffOnly_map_replace q v ks X Y h
  · rw [if_neg hkX, if_neg (by rw [← hk]; exact hkX)]
    apply DiffOnly_append_new q v ks X Y h
    intro e he
    have hf : X.any (fun e => e.1 == q) = false := by
      cases hx : X.any (fun e => e.1 == q) with
      | false => rfl
      | true => exact absurd hx hkX
    cases hx : (e.1 == q) with
    | false => rfl
    | true => exact absurd hx (List.any_eq_false.mp hf e he)

theorem DiffOnly_valuesFold (args : List String) :
    ∀ (os : List OptParseItem) (X Y : List (String × String)),
      DiffOnly (os.map (fun o => o.option)) X Y →
      valuesFold os args X = valuesFold os args Y := by
  intro os
  induction os with
  | nil => intro X Y h; exact DiffOnly_nil_eq X Y h
  | cons o os ih =>
    intro X Y h
    rw [valuesFold_cons, valuesFold_cons]
    simp only [List.map_cons] at h
    exact ih _ _ (DiffOnly_insertAssoc o.option (parse_option_value o args)
      (os.map (fun o => o.option)) X Y h)

theorem DiffOnly_ins_self (q v : String) (ks : List String) (hq : q ∈ ks) :
    ∀ W : List (String × String), hasKey W q = true →
      DiffOnly ks (insertAssoc q v W) W := by
  intro W hW
  unfold hasKey at hW
  unfold insertAssoc
  rw [if_pos hW]
  clear hW
  induction W with
  | nil => trivial
  | cons e xs ih =>
    simp only [List.map_cons]
    by_cases hq1 : e.1 = q
    · rw [if_pos hq1]
      exact ⟨hq1.symm, fun hnot => absurd hq hnot, ih⟩
    · rw [if_neg hq1]
      exact ⟨rfl, fun _ => rfl, ih⟩

theorem valuesFold_idem (args : List String) :
    ∀ (os : List OptParseItem) (m : List (String × String)),
      valuesFold os args (valuesFold os args m) = valuesFold os args m := by
  intro os
  induction os with
  | nil => intro m; rfl
  | cons o os ih =>
    intro m
    rw [valuesFold_cons, valuesFold_cons]
    by_cases hq : o.option ∈ os.map (fun x => x.option)
    · have hkey : hasKey (valuesFold os args
          (insertAssoc o.option (parse_option_value o args) m)) o.option = true :=
        hasKey_valuesFold_mono args o.option os _
          (hasKey_insertAssoc_self o.option (parse_option_value o args) m)
      rw [DiffOnly_valuesFold args os _ _
        (DiffOnly_ins_self o.option (parse_option_value o args)
          (os.map (fun x => x.option)) hq _ hkey)]
      exact ih _
    · have hpres : presentWith (valuesFold os args
          (insertAssoc o.option (parse_option_value o args) m))
          o.option (parse_option_value o args) :=
        presentWith_valuesFold args o.option (parse_option_value o args) os _
          (fun o1 ho1 heq => hq (List.mem_map.mpr ⟨o1, ho1, heq⟩))
          (presentWith_insertAssoc_self o.option (parse_option_value o args) m)
      rw [insertAssoc_of_presentWith o.option (parse_option_value o args) _ hpres]
      exact ih _

/-- C1 counterexample: parsing twice with unchanged raw arguments does not
leave `arg_values` unchanged — on `rawArgs = ["a"]` with no specs, the second
`parse_options` appends the positional scan again, giving `["a", "a"]`. -/
theorem C1_parse_twice_counterexample :
    ¬ (((parse_options ((parse_options (OptParse.new ["a"] [] "") false).1)
          false).1).arg_values
        = ((parse_options (OptParse.new ["a"] [] "") false).1).arg_values) := by
  decide

/-- C1 (amended): re-running `parse_options` on the same constructed parser
with unchanged `rawArgs` leaves `resolvedValues` identical, but appends the
positional scan's output to `arg_values` a second time (so positionals are
identical only when that output is empty, e.g. when the help-exit fires or
every raw token is consumed as an option). -/
theorem C1_parse_twice_amended (args : List String) (options : List OptParseItem)
    (desc : String) (fin : Bool) :
    ((parse_options ((parse_options (OptParse.new args options desc) fin).1)
        fin).1).values
      = ((parse_options (OptParse.new args options desc) fin).1).values
    ∧ ((parse_options ((parse_options (OptParse.new args options desc) fin).1)
        fin).1).arg_values
      = ((parse_options (OptParse.new args options desc) fin).1).arg_values
        ++ (if (fin && hasHelp args) = true then []
            else collectArgs options args 0) := by
  rw [parse_options_eq (OptParse.new args options desc) fin, parse_options_eq]
  constructor
  · show valuesFold options args (valuesFold options args []) = valuesFold options args []
    exact valuesFold_idem args options []
  · rfl

end RstOptParse
